import Mathlib

/-!
Shallow embedding of `src/merkle_tree.rs` (a binary Merkle tree over a flat
node list) and proofs of the specification claims.

Modelling conventions:
* Rust `Vec<Vec<u8>>` becomes `List D` for an arbitrary digest type `D`; the
  SHA3-256 primitives `hash` and `hash_pair` live in the external `sha3`
  crate, so tree operations are parametrised over arbitrary functions
  `hash : String → D` and `hash_pair : D → D → D`.
* A Rust operation that can panic (out-of-bounds indexing, `usize`
  underflow) is modelled as an `Option`-valued function returning `none` on
  the panicking executions; `build_hashes` on the empty list, which in the
  source recurses forever (its `chunks(2)` of an empty vector is empty, so
  it calls itself on an empty vector again), is also modelled as `none`
  since it never returns normally.
-/

universe u

variable {D : Type u}

/-- The `MerkleTree` struct: a flat list of node digests (root first,
leaves last) and the number of leaf elements. -/
structure MerkleTree (D : Type u) where
  hashes : List D
  count : Nat
deriving DecidableEq

/-- One pairing level of `build_hashes`: the Rust
`hashes.chunks(2).map(|e| hash_pair(e[0], e[1]))`.  A trailing chunk of odd
size makes `e[1]` panic, modelled by `none`. -/
def pair_up (hash_pair : D → D → D) : List D → Option (List D)
  | [] => some []
  | [_] => none
  | a :: b :: rest => (pair_up hash_pair rest).map (fun t => hash_pair a b :: t)

/-- `MerkleTree::build_hashes`: returns the input unchanged when it is a
single (root) digest, otherwise pairs adjacent digests and prepends the
recursively built hierarchy of the parent level.  The empty input, on which
the source recurses forever, yields `none`. -/
def build_hashes (hash_pair : D → D → D) (hashes : List D) : Option (List D) :=
  if hashes.length = 1 then some hashes
  else if hashes.length = 0 then none
  else
    match h2 : pair_up hash_pair hashes with
    | none => none
    | some h => (build_hashes hash_pair h).map (fun r => r ++ hashes)
termination_by hashes.length
decreasing_by
  have key : ∀ l p : List D, pair_up hash_pair l = some p → 2 * p.length = l.length := by
    intro l
    induction l using pair_up.induct hash_pair with
    | case1 => intro p hp; simp [pair_up] at hp; simp [hp]
    | case2 x => intro p hp; simp [pair_up] at hp
    | case3 a b rest ih =>
      intro p hp
      simp [pair_up] at hp
      obtain ⟨t, ht, rfl⟩ := hp
      have := ih t ht
      simp only [List.length_cons, List.length]
      omega
  have := key hashes h h2
  omega

/-- `MerkleTree::hash_elements`: hash each element. -/
def hash_elements (hash : String → D) (elements : List String) : List D :=
  elements.map hash

/-- `MerkleTree::new`: hash the elements, build the node list, store the
element count. -/
def MerkleTree.new (hash : String → D) (hash_pair : D → D → D)
    (elements : List String) : Option (MerkleTree D) :=
  (build_hashes hash_pair (hash_elements hash elements)).map
    (fun hs => { hashes := hs, count := elements.length })

/-- `MerkleTree::root`: `&self.hashes[0]`, `none` when the node list is
empty (the Rust indexing would panic). -/
def MerkleTree.root (t : MerkleTree D) : Option D :=
  t.hashes[0]?

/-- `MerkleTree::get_hashes`. -/
def MerkleTree.get_hashes (t : MerkleTree D) : List D :=
  t.hashes

/-- `MerkleTree::add`: recover the old leaves from position `count - 1` on,
append the new leaf digests, rebuild, and store the new count.  `none`
models the panicking executions: `count - 1` underflows when `count = 0`,
and the slice `hashes[count - 1 ..]` panics when `count - 1` exceeds the
list length. -/
def MerkleTree.add (hash : String → D) (hash_pair : D → D → D)
    (t : MerkleTree D) (elements : List String) : Option (MerkleTree D) :=
  let new_leaves := hash_elements hash elements
  if t.count = 0 then none
  else if t.hashes.length < t.count - 1 then none
  else
    let old_leaves := t.hashes.drop (t.count - 1)
    let leaves := old_leaves ++ new_leaves
    (build_hashes hash_pair leaves).map
      (fun hs => { hashes := hs, count := leaves.length })

/-- `MerkleTree::add`, small-step: the same code as `MerkleTree.add` but
keeping the tree state visible at the moment a panic occurs
(`Except.error s` is a panic with the struct in state `s`).  The source
assigns `self.count = leaves.len()` *before* calling `build_hashes`, so a
panic inside the rebuild happens with `count` already updated while
`hashes` still holds the old nodes. -/
def MerkleTree.add_exec (hash : String → D) (hash_pair : D → D → D)
    (t : MerkleTree D) (elements : List String) :
    Except (MerkleTree D) (MerkleTree D) :=
  let new_leaves := hash_elements hash elements
  if t.count = 0 then .error t
  else if t.hashes.length < t.count - 1 then .error t
  else
    let old_leaves := t.hashes.drop (t.count - 1)
    let leaves := old_leaves ++ new_leaves
    match build_hashes hash_pair leaves with
    | none => .error { hashes := t.hashes, count := leaves.length }
    | some hs => .ok { hashes := hs, count := leaves.length }

/-- The loop of `MerkleTree::proof`, recursing on the level offset `i`:
while `i ≠ 0`, record the sibling (`hashes[index + 1 + i]` for an even
working index, `hashes[index + i - 1]` for an odd one; `none` when the
index is out of bounds, where Rust panics), then move to the parent level
with `index / 2` and `(i + 1) / 2 - 1`. -/
def proofLoop (hashes : List D) (index : Nat) : Nat → Option (List D)
  | 0 => some []
  | i + 1 => do
      let h ← if index % 2 = 0 then hashes[index + 1 + (i + 1)]?
              else hashes[index + (i + 1) - 1]?
      let rest ← proofLoop hashes (index / 2) ((i + 1 + 1) / 2 - 1)
      some (h :: rest)
termination_by i => i
decreasing_by omega

/-- `MerkleTree::proof`: run the sibling-collecting loop starting at the
leaf level offset `count - 1` (`none` when `count = 0`, where the `usize`
subtraction panics). -/
def MerkleTree.proof (t : MerkleTree D) (index : Nat) : Option (List D) :=
  if t.count = 0 then none
  else proofLoop t.hashes index (t.count - 1)

/-- The loop of `MerkleTree::verify`: fold the proof digests into a running
hash, the working index parity choosing the argument order. -/
def verifyLoop (hash_pair : D → D → D) : D → Nat → List D → D
  | h, _, [] => h
  | h, index, p :: ps =>
      verifyLoop hash_pair
        (if index % 2 = 0 then hash_pair h p else hash_pair p h)
        (index / 2) ps

/-- `MerkleTree::verify`: start from the stored leaf digest
`hashes[count - 1 + index]`, fold in the proof, and compare with the root.
`none` models the panics (underflow of `count - 1`, leaf lookup out of
bounds, or `root()` on an empty node list). -/
def MerkleTree.verify [DecidableEq D] (hash_pair : D → D → D)
    (t : MerkleTree D) (proof : List D) (index : Nat) : Option Bool :=
  if t.count = 0 then none
  else
    match t.hashes[t.count - 1 + index]?, t.root with
    | some h0, some r => some (decide (verifyLoop hash_pair h0 index proof = r))
    | _, _ => none

/-- The slice `self.hashes[count - 1 ..]` that `add` uses to recover the
old leaves. -/
def old_leaves_impl (t : MerkleTree D) : List D :=
  t.hashes.drop (t.count - 1)

/-- Modelled from the spec: the "last `count` entries of `nodes`" slice,
`nodes[totalNodes - count ..]`, that §4.3 of the spec describes for
recovering the old leaves. -/
def old_leaves_spec (t : MerkleTree D) : List D :=
  t.hashes.drop (t.hashes.length - t.count)

/-- A concrete digest instantiation for witnesses: digests are byte lists,
an element hashes to the singleton of its length. -/
def hashC (s : String) : List Nat :=
  [s.length]

/-- A concrete pair-combiner for witnesses: concatenation. -/
def hpC (a b : List Nat) : List Nat :=
  a ++ b

/-- The concrete tree built from `["a"]` under `hashC` / `hpC`. -/
def treeA : MerkleTree (List Nat) :=
  { hashes := [[1]], count := 1 }

/-- The concrete tree built from `["a", "bb"]` under `hashC` / `hpC`. -/
def treeAB : MerkleTree (List Nat) :=
  { hashes := [[1, 2], [1], [2]], count := 2 }

/-- The concrete tree built from `["hola", "moikka", "heippa", "ahoj"]`
under `hashC` / `hpC`. -/
def treeHola : MerkleTree (List Nat) :=
  { hashes := [[4, 6, 6, 4], [4, 6], [6, 4], [4], [6], [6], [4]], count := 4 }

/-! ### Helper lemmas about `pair_up` -/

theorem pair_up_length {hash_pair : D → D → D} :
    ∀ {l p : List D}, pair_up hash_pair l = some p → 2 * p.length = l.length := by
  intro l
  induction l using pair_up.induct hash_pair with
  | case1 => intro p hp; simp [pair_up] at hp; simp [hp]
  | case2 x => intro p hp; simp [pair_up] at hp
  | case3 a b rest ih =>
    intro p hp
    simp [pair_up] at hp
    obtain ⟨t, ht, rfl⟩ := hp
    have := ih ht
    simp only [List.length_cons]
    omega

theorem pair_up_odd {hash_pair : D → D → D} :
    ∀ {l : List D}, l.length % 2 = 1 → pair_up hash_pair l = none := by
  intro l
  induction l using pair_up.induct hash_pair with
  | case1 => intro h; simp at h
  | case2 x => intro h; simp [pair_up]
  | case3 a b rest ih =>
    intro h
    simp only [List.length_cons] at h
    have : rest.length % 2 = 1 := by omega
    simp [pair_up, ih this]

theorem pair_up_even {hash_pair : D → D → D} :
    ∀ {l : List D}, l.length % 2 = 0 → ∃ p, pair_up hash_pair l = some p := by
  intro l
  induction l using pair_up.induct hash_pair with
  | case1 => intro _; exact ⟨[], rfl⟩
  | case2 x => intro h; simp at h
  | case3 a b rest ih =>
    intro h
    simp only [List.length_cons] at h
    obtain ⟨p, hp⟩ := ih (by omega)
    exact ⟨hash_pair a b :: p, by simp [pair_up, hp]⟩

theorem pair_up_getElem {hash_pair : D → D → D} :
    ∀ {l p : List D}, pair_up hash_pair l = some p →
    ∀ (j : Nat) (x y : D), l[2 * j]? = some x → l[2 * j + 1]? = some y →
    p[j]? = some (hash_pair x y) := by
  intro l
  induction l using pair_up.induct hash_pair with
  | case1 => intro p hp j x y hx hy; simp at hx
  | case2 a => intro p hp j x y hx hy; simp [pair_up] at hp
  | case3 a b rest ih =>
    intro p hp j x y hx hy
    simp [pair_up] at hp
    obtain ⟨t, ht, rfl⟩ := hp
    cases j with
    | zero =>
      simp at hx hy
      simp [hx, hy]
    | succ j =>
      have h2 : 2 * (j + 1) = 2 * j + 1 + 1 := by omega
      rw [h2] at hx hy
      simp only [List.getElem?_cons_succ] at hx hy
      simpa using ih ht j x y hx hy

/-! ### Helper lemmas about `build_hashes` -/

theorem build_hashes_nil (hash_pair : D → D → D) :
    build_hashes hash_pair ([] : List D) = none := by
  rw [build_hashes]; simp

theorem build_hashes_singleton (hash_pair : D → D → D) (x : D) :
    build_hashes hash_pair [x] = some [x] := by
  rw [build_hashes]; simp

theorem build_hashes_of_length_one {hash_pair : D → D → D} {l : List D}
    (h : l.length = 1) : build_hashes hash_pair l = some l := by
  rw [build_hashes, if_pos h]

theorem build_hashes_step {hash_pair : D → D → D} {l p : List D}
    (h2 : 2 ≤ l.length) (hp : pair_up hash_pair l = some p) :
    build_hashes hash_pair l =
      (build_hashes hash_pair p).map (fun r => r ++ l) := by
  rw [build_hashes, if_neg (by omega), if_neg (by omega)]
  split
  · rename pair_up hash_pair l = none => hnone
    rw [hp] at hnone; cases hnone
  · rename_i q hq
    rw [hp] at hq
    cases hq
    rfl

theorem build_hashes_step_none {hash_pair : D → D → D} {l : List D}
    (h2 : 2 ≤ l.length) (hp : pair_up hash_pair l = none) :
    build_hashes hash_pair l = none := by
  rw [build_hashes, if_neg (by omega), if_neg (by omega)]
  split
  · rfl
  · rename_i q hq
    rw [hp] at hq
    cases hq

/-- Structure of a successful build on a power-of-two leaf list: the build
succeeds, the node list has `2 * leaves - 1` entries, and its final
`leaves` entries are the leaf list itself. -/
theorem build_hashes_pow2 (hash_pair : D → D → D) :
    ∀ (k : Nat) (l : List D), l.length = 2 ^ k →
    ∃ n, build_hashes hash_pair l = some n ∧
      n.length = 2 * l.length - 1 ∧ n.drop (l.length - 1) = l := by
  intro k
  induction k with
  | zero =>
    intro l hl
    simp only [pow_zero] at hl
    exact ⟨l, build_hashes_of_length_one hl, by omega, by simp [hl]⟩
  | succ k ih =>
    intro l hl
    have hpos := Nat.two_pow_pos k
    have hps : (2 : Nat) ^ (k + 1) = 2 * 2 ^ k := by rw [pow_succ]; ring
    have hlen2 : 2 ≤ l.length := by omega
    have heven : l.length % 2 = 0 := by omega
    obtain ⟨p, hp⟩ := pair_up_even heven
    have hplen : 2 * p.length = l.length := pair_up_length hp
    obtain ⟨m, hm, hmlen, hmdrop⟩ := ih p (by omega)
    refine ⟨m ++ l, ?_, ?_, ?_⟩
    · rw [build_hashes_step hlen2 hp, hm]; rfl
    · simp only [List.length_append]; omega
    · have hml : l.length - 1 = m.length := by omega
      rw [hml, List.drop_left]

/-- A build on a leaf count that is not a power of two fails. -/
theorem build_hashes_not_pow2 (hash_pair : D → D → D) :
    ∀ (n : Nat) (l : List D), l.length = n → (∀ k, l.length ≠ 2 ^ k) →
    build_hashes hash_pair l = none := by
  intro n
  induction n using Nat.strong_induction_on with
  | _ n ih =>
    intro l hln h
    rcases Nat.lt_or_ge l.length 2 with hlt | hge
    · interval_cases hl : l.length
      · rw [List.length_eq_zero.mp hl]
        exact build_hashes_nil hash_pair
      · exact absurd hl (by simpa using h 0)
    · rcases Nat.even_or_odd l.length with he | ho
      · obtain ⟨p, hp⟩ := pair_up_even (Nat.even_iff.mp he)
        have hplen : 2 * p.length = l.length := pair_up_length hp
        have hpnot : ∀ k, p.length ≠ 2 ^ k := by
          intro k hk
          exact h (k + 1) (by rw [pow_succ]; omega)
        have : build_hashes hash_pair p = none :=
          ih p.length (by omega) p rfl hpnot
        rw [build_hashes_step hge hp, this]
        rfl
      · exact build_hashes_step_none hge (pair_up_odd (Nat.odd_iff.mp ho))

/-! ### Helper lemmas about `proofLoop` -/

theorem proofLoop_zero (hashes : List D) (index : Nat) :
    proofLoop hashes index 0 = some [] := by
  rw [proofLoop]

theorem proofLoop_succ (hashes : List D) (index i : Nat) :
    proofLoop hashes index (i + 1) =
      (if index % 2 = 0 then hashes[index + 1 + (i + 1)]?
       else hashes[index + (i + 1) - 1]?).bind
        (fun h => (proofLoop hashes (index / 2) ((i + 1 + 1) / 2 - 1)).bind
          (fun rest => some (h :: rest))) := by
  rw [proofLoop]
  split <;> rfl

/-- The proof loop over a level structure of `2 ^ m` leaves only reads
positions below `2 ^ (m + 1) - 1`, so a longer node list with the same
prefix gives the same answer. -/
theorem proofLoop_prefix :
    ∀ (m index : Nat) (ns tail : List D), index < 2 ^ m →
    2 ^ (m + 1) - 1 ≤ ns.length →
    proofLoop (ns ++ tail) index (2 ^ m - 1) = proofLoop ns index (2 ^ m - 1) := by
  intro m
  induction m with
  | zero => intro index ns tail _ _; simp [proofLoop_zero]
  | succ m ih =>
    intro index ns tail hidx hns
    have hpos := Nat.two_pow_pos m
    have hs1 : (2 : Nat) ^ (m + 1) = 2 * 2 ^ m := by rw [pow_succ]; ring
    have hs2 : (2 : Nat) ^ (m + 2) = 4 * 2 ^ m := by rw [pow_succ, pow_succ]; ring
    rw [hs1] at hidx
    rw [hs2] at hns
    obtain ⟨i, hi⟩ : ∃ i, 2 ^ (m + 1) - 1 = i + 1 := ⟨2 ^ (m + 1) - 2, by omega⟩
    rw [hi, proofLoop_succ, proofLoop_succ]
    have harith : (i + 1 + 1) / 2 - 1 = 2 ^ m - 1 := by omega
    rw [harith]
    by_cases hpar : index % 2 = 0
    · have hbound : index + 1 + (i + 1) < ns.length := by omega
      rw [if_pos hpar, if_pos hpar, List.getElem?_append_left hbound,
        ih (index / 2) ns tail (by omega) (by omega)]
    · have hbound : index + (i + 1) - 1 < ns.length := by omega
      rw [if_neg hpar, if_neg hpar, List.getElem?_append_left hbound,
        ih (index / 2) ns tail (by omega) (by omega)]

/-- Round trip of `proofLoop` and `verifyLoop` over a successful build:
from any leaf the collected siblings recombine to the root. -/
theorem roundtrip_aux (hash_pair : D → D → D) :
    ∀ (k : Nat) (l n : List D), l.length = 2 ^ k →
    build_hashes hash_pair l = some n →
    ∀ (index : Nat) (x : D), l[index]? = some x →
    ∃ pf r, proofLoop n index (l.length - 1) = some pf ∧ n[0]? = some r ∧
      verifyLoop hash_pair x index pf = r := by
  intro k
  induction k with
  | zero =>
    intro l n hl hb index x hx
    simp only [pow_zero] at hl
    rw [build_hashes_of_length_one hl] at hb
    cases hb
    have hidx : index < l.length := by
      by_contra hcon
      rw [List.getElem?_eq_none_iff.mpr (by omega)] at hx
      cases hx
    have hidx0 : index = 0 := by omega
    subst hidx0
    exact ⟨[], x, by rw [hl]; exact proofLoop_zero l 0, hx, rfl⟩
  | succ k ih =>
    intro l n hl hb index x hx
    have hpos := Nat.two_pow_pos k
    have hs1 : (2 : Nat) ^ (k + 1) = 2 * 2 ^ k := by rw [pow_succ]; ring
    have hlen2 : 2 ≤ l.length := by omega
    obtain ⟨p, hp⟩ := pair_up_even (l := l) (by omega)
    have hplen : 2 * p.length = l.length := pair_up_length hp
    obtain ⟨m, hm, hmlen, _⟩ := build_hashes_pow2 hash_pair k p (by omega)
    rw [build_hashes_step hlen2 hp, hm] at hb
    cases hb
    have hidx : index < l.length := by
      by_contra hcon
      rw [List.getElem?_eq_none_iff.mpr (by omega)] at hx
      cases hx
    have hmlen2 : m.length = l.length - 1 := by omega
    obtain ⟨i, hi⟩ : ∃ i, l.length - 1 = i + 1 := ⟨l.length - 2, by omega⟩
    rw [hi, proofLoop_succ]
    have harith : (i + 1 + 1) / 2 - 1 = 2 ^ k - 1 := by omega
    rw [harith]
    have hpre : proofLoop (m ++ l) (index / 2) (2 ^ k - 1) =
        proofLoop m (index / 2) (2 ^ k - 1) :=
      proofLoop_prefix k (index / 2) m l (by omega) (by omega)
    by_cases hpar : index % 2 = 0
    · -- even leaf: the sibling is the next leaf to the right
      have hsib : index + 1 < l.length := by omega
      obtain ⟨y, hy⟩ : ∃ y, l[index + 1]? = some y :=
        ⟨l[index + 1], (List.getElem?_eq_some_getElem_iff l _ hsib).mpr trivial⟩
      have haccess : (m ++ l)[index + 1 + (i + 1)]? = some y := by
        rw [show index + 1 + (i + 1) = m.length + (index + 1) by omega,
          List.getElem?_append_right (by omega)]
        simpa using hy
      have hpj : p[index / 2]? = some (hash_pair x y) := by
        refine pair_up_getElem hp (index / 2) x y ?_ ?_
        · rw [show 2 * (index / 2) = index by omega]; exact hx
        · rw [show 2 * (index / 2) + 1 = index + 1 by omega]; exact hy
      obtain ⟨pf, r, hpf, hr, hv⟩ :=
        ih p m (by omega) hm (index / 2) (hash_pair x y) hpj
      rw [show p.length - 1 = 2 ^ k - 1 by omega] at hpf
      refine ⟨y :: pf, r, ?_, ?_, ?_⟩
      · rw [if_pos hpar, haccess, Option.some_bind, hpre, hpf]
        rfl
      · rw [List.getElem?_append_left (by omega)]
        exact hr
      · rw [verifyLoop, if_pos hpar]
        exact hv
    · -- odd leaf: the sibling is the previous leaf to the left
      have hodd : index % 2 = 1 := by omega
      have hsib : index - 1 < l.length := by omega
      obtain ⟨y, hy⟩ : ∃ y, l[index - 1]? = some y :=
        ⟨l[index - 1], (List.getElem?_eq_some_getElem_iff l _ hsib).mpr trivial⟩
      have haccess : (m ++ l)[index + (i + 1) - 1]? = some y := by
        rw [show index + (i + 1) - 1 = m.length + (index - 1) by omega,
          List.getElem?_append_right (by omega)]
        simpa using hy
      have hpj : p[index / 2]? = some (hash_pair y x) := by
        refine pair_up_getElem hp (index / 2) y x ?_ ?_
        · rw [show 2 * (index / 2) = index - 1 by omega]; exact hy
        · rw [show 2 * (index / 2) + 1 = index by omega]; exact hx
      obtain ⟨pf, r, hpf, hr, hv⟩ :=
        ih p m (by omega) hm (index / 2) (hash_pair y x) hpj
      rw [show p.length - 1 = 2 ^ k - 1 by omega] at hpf
      refine ⟨y :: pf, r, ?_, ?_, ?_⟩
      · rw [if_neg hpar, haccess, Option.some_bind, hpre, hpf]
        rfl
      · rw [List.getElem?_append_left (by omega)]
        exact hr
      · rw [verifyLoop, if_neg hpar]
        exact hv

/-- Unfolding of a successful `MerkleTree.new`. -/
theorem new_eq_some {hash : String → D} {hash_pair : D → D → D}
    {elements : List String} {t : MerkleTree D}
    (h : MerkleTree.new hash hash_pair elements = some t) :
    ∃ n, build_hashes hash_pair (hash_elements hash elements) = some n ∧
      t = { hashes := n, count := elements.length } := by
  unfold MerkleTree.new at h
  cases hb : build_hashes hash_pair (hash_elements hash elements) with
  | none => rw [hb] at h; cases h
  | some n => rw [hb] at h; cases h; exact ⟨n, rfl, rfl⟩

/-- C1: for every tree freshly constructed from a non-empty element list
whose length is a power of two, and for every `leafIndex` with
`0 ≤ leafIndex < count`, `verify (proof leafIndex) leafIndex` returns
`true`. -/
theorem C1_proof_verify_roundtrip [DecidableEq D] (hash : String → D)
    (hash_pair : D → D → D) (elements : List String) (k : Nat)
    (hk : elements.length = 2 ^ k) (t : MerkleTree D)
    (ht : MerkleTree.new hash hash_pair elements = some t)
    (index : Nat) (hidx : index < t.count) :
    ∃ pf, t.proof index = some pf ∧ t.verify hash_pair pf index = some true := by
  obtain ⟨n, hb, rfl⟩ := new_eq_some ht
  simp only at hidx
  have hpos := Nat.two_pow_pos k
  have hllen : (hash_elements hash elements).length = 2 ^ k := by
    simp [hash_elements, hk]
  have hidxl : index < (hash_elements hash elements).length := by omega
  obtain ⟨x, hx⟩ : ∃ x, (hash_elements hash elements)[index]? = some x :=
    ⟨_, (List.getElem?_eq_some_getElem_iff _ _ hidxl).mpr trivial⟩
  obtain ⟨pf, r, hpf, hr, hv⟩ := roundtrip_aux hash_pair k _ n hllen hb index x hx
  obtain ⟨n2, hb2, hnlen, hdrop⟩ := build_hashes_pow2 hash_pair k _ hllen
  rw [hb] at hb2
  cases hb2
  have hcount : elements.length = (hash_elements hash elements).length := by
    simp [hash_elements]
  refine ⟨pf, ?_, ?_⟩
  · unfold MerkleTree.proof
    simp only
    rw [if_neg (by omega), hcount]
    exact hpf
  · unfold MerkleTree.verify
    simp only
    rw [if_neg (by omega)]
    have hleaf : n[elements.length - 1 + index]? = some x := by
      rw [← hx, ← List.getElem?_drop, hcount, hdrop]
    rw [hleaf]
    unfold MerkleTree.root
    simp only
    rw [hr]
    simp [hv]

/-- Witness for C1: the two-leaf tree built from `["a", "bb"]` under the
concrete digest functions, at leaf index 0. -/
theorem C1_witness :
    ∃ pf, treeAB.proof 0 = some pf ∧ treeAB.verify hpC pf 0 = some true :=
  C1_proof_verify_roundtrip hashC hpC ["a", "bb"] 1 (by decide) treeAB
    (by simp [MerkleTree.new, hash_elements, build_hashes, pair_up, hpC,
          treeAB, hashC]
        decide)
    0 (by decide)

/-- Unfolding of `MerkleTree.add` when neither guard panics. -/
theorem add_eq (hash : String → D) (hash_pair : D → D → D)
    (t : MerkleTree D) (elements : List String) (hc : ¬ t.count = 0)
    (hg : ¬ t.hashes.length < t.count - 1) :
    t.add hash hash_pair elements =
      (build_hashes hash_pair
          (t.hashes.drop (t.count - 1) ++ hash_elements hash elements)).map
        (fun hs => (⟨hs, (t.hashes.drop (t.count - 1) ++
          hash_elements hash elements).length⟩ : MerkleTree D)) := by
  unfold MerkleTree.add
  rw [if_neg hc, if_neg hg]

/-- C2: adding `E2` to the tree built from `E1` yields the same root as
building a fresh tree from `E1 ++ E2`, when both lengths are powers of
two.  (The two trees are in fact equal.) -/
theorem C2_append_consistency (hash : String → D) (hash_pair : D → D → D)
    (E1 E2 : List String) (j k : Nat) (h1 : E1.length = 2 ^ j)
    (h2 : (E1 ++ E2).length = 2 ^ k) (t : MerkleTree D)
    (ht : MerkleTree.new hash hash_pair E1 = some t) :
    ∃ t2 u, t.add hash hash_pair E2 = some t2 ∧
      MerkleTree.new hash hash_pair (E1 ++ E2) = some u ∧
      t2.root = u.root := by
  obtain ⟨n, hb, rfl⟩ := new_eq_some ht
  have hpos := Nat.two_pow_pos j
  have hl1 : (hash_elements hash E1).length = 2 ^ j := by simp [hash_elements, h1]
  obtain ⟨n2, hb2, hnlen, hdrop⟩ := build_hashes_pow2 hash_pair j _ hl1
  rw [hb] at hb2
  cases hb2
  have hl1len : (hash_elements hash E1).length = E1.length := by
    simp [hash_elements]
  obtain ⟨m, hm, hmlen, hmdrop⟩ := build_hashes_pow2 hash_pair k
    (hash_elements hash (E1 ++ E2)) (by simpa [hash_elements] using h2)
  have hc : ¬ E1.length = 0 := by omega
  have hguard : ¬ n.length < E1.length - 1 := by omega
  refine ⟨⟨m, (n.drop (E1.length - 1) ++ hash_elements hash E2).length⟩,
    ⟨m, (E1 ++ E2).length⟩, ?_, ?_, rfl⟩
  · rw [add_eq hash hash_pair _ E2 hc hguard]
    simp only
    have hleaves : n.drop (E1.length - 1) ++ hash_elements hash E2 =
        hash_elements hash (E1 ++ E2) := by
      rw [← hl1len, hdrop]
      simp [hash_elements]
    rw [hleaves, hm]
    rfl
  · unfold MerkleTree.new
    rw [hm]
    rfl

/-- Witness for C2: `E1 = ["a", "bb"]`, `E2 = ["ccc", "dddd"]` under the
concrete digest functions. -/
theorem C2_witness :
    ∃ t2 u, treeAB.add hashC hpC ["ccc", "dddd"] = some t2 ∧
      MerkleTree.new hashC hpC (["a", "bb"] ++ ["ccc", "dddd"]) = some u ∧
      t2.root = u.root :=
  C2_append_consistency hashC hpC ["a", "bb"] ["ccc", "dddd"] 1 2
    (by decide) (by decide) treeAB
    (by simp [MerkleTree.new, hash_elements, build_hashes, pair_up, hpC,
          treeAB, hashC]
        decide)

/-- C3: after every construction from a power-of-two element list, and
after every `add` from a state satisfying the layout invariant whose new
total is a power of two, the node list has length `2 * count - 1`, its
head is the digest returned by `root`, and its final `count` positions are
the leaf digests in order. -/
theorem C3_layout_invariant (hash : String → D) (hash_pair : D → D → D) :
    (∀ (E : List String) (k : Nat), E.length = 2 ^ k →
      ∃ t, MerkleTree.new hash hash_pair E = some t ∧
        t.count = E.length ∧
        t.hashes.length = 2 * t.count - 1 ∧
        (∃ r, t.root = some r ∧ t.hashes[0]? = some r) ∧
        t.hashes.drop (t.hashes.length - t.count) = hash_elements hash E) ∧
    (∀ (E1 E2 : List String) (k : Nat) (t : MerkleTree D),
      t.count = E1.length →
      t.hashes.length = 2 * t.count - 1 →
      t.hashes.drop (t.hashes.length - t.count) = hash_elements hash E1 →
      1 ≤ t.count →
      (E1 ++ E2).length = 2 ^ k →
      ∃ t2, t.add hash hash_pair E2 = some t2 ∧
        t2.count = (E1 ++ E2).length ∧
        t2.hashes.length = 2 * t2.count - 1 ∧
        (∃ r, t2.root = some r ∧ t2.hashes[0]? = some r) ∧
        t2.hashes.drop (t2.hashes.length - t2.count) =
          hash_elements hash (E1 ++ E2)) := by
  constructor
  · intro E k hk
    have hpos := Nat.two_pow_pos k
    have hl : (hash_elements hash E).length = 2 ^ k := by simp [hash_elements, hk]
    have hlE : (hash_elements hash E).length = E.length := by simp [hash_elements]
    obtain ⟨n, hb, hnlen, hdrop⟩ := build_hashes_pow2 hash_pair k _ hl
    refine ⟨{ hashes := n, count := E.length }, ?_, rfl, by simp; omega, ?_, ?_⟩
    · unfold MerkleTree.new
      rw [hb]
      rfl
    · have h0 : 0 < n.length := by omega
      exact ⟨n[0], (List.getElem?_eq_some_getElem_iff n 0 h0).mpr trivial,
        (List.getElem?_eq_some_getElem_iff n 0 h0).mpr trivial⟩
    · simp only
      rw [show n.length - E.length = (hash_elements hash E).length - 1 by omega,
        hdrop]
  · intro E1 E2 k t hcount hlen hleaves hc1 hk
    have hpos := Nat.two_pow_pos k
    have hlE : ∀ E : List String, (hash_elements hash E).length = E.length := by
      intro E; simp [hash_elements]
    obtain ⟨m, hm, hmlen, hmdrop⟩ := build_hashes_pow2 hash_pair k
      (hash_elements hash (E1 ++ E2)) (by rw [hlE]; exact hk)
    have hleq : t.hashes.drop (t.count - 1) ++ hash_elements hash E2 =
        hash_elements hash (E1 ++ E2) := by
      rw [show t.count - 1 = t.hashes.length - t.count by omega, hleaves]
      simp [hash_elements]
    refine ⟨⟨m, (t.hashes.drop (t.count - 1) ++ hash_elements hash E2).length⟩,
      ?_, ?_, ?_, ?_, ?_⟩
    · rw [add_eq hash hash_pair t E2 (by omega) (by omega), hleq, hm]
      rfl
    · simp only
      rw [hleq, hlE]
    · simp only
      rw [hleq, hlE, hmlen, hlE]
    · have h0 : 0 < m.length := by
        rw [hmlen, hlE]
        omega
      exact ⟨m[0], (List.getElem?_eq_some_getElem_iff m 0 h0).mpr trivial,
        (List.getElem?_eq_some_getElem_iff m 0 h0).mpr trivial⟩
    · simp only
      rw [hleq, hlE, show m.length - (E1 ++ E2).length =
        (hash_elements hash (E1 ++ E2)).length - 1 by rw [hmlen, hlE]; omega,
        hmdrop]

/-- Witness for C3: construction from `["a", "bb"]` and one `add` of
`["ccc", "dddd"]` under the concrete digest functions. -/
theorem C3_witness :
    (∃ t, MerkleTree.new hashC hpC ["a", "bb"] = some t ∧
      t.count = 2 ∧ t.hashes.length = 2 * t.count - 1 ∧
      (∃ r, t.root = some r ∧ t.hashes[0]? = some r) ∧
      t.hashes.drop (t.hashes.length - t.count) =
        hash_elements hashC ["a", "bb"]) ∧
    (∃ t2, treeAB.add hashC hpC ["ccc", "dddd"] = some t2 ∧
      t2.count = (["a", "bb"] ++ ["ccc", "dddd"]).length ∧
      t2.hashes.length = 2 * t2.count - 1 ∧
      (∃ r, t2.root = some r ∧ t2.hashes[0]? = some r) ∧
      t2.hashes.drop (t2.hashes.length - t2.count) =
        hash_elements hashC (["a", "bb"] ++ ["ccc", "dddd"])) :=
  ⟨(C3_layout_invariant hashC hpC).1 ["a", "bb"] 1 (by decide),
    (C3_layout_invariant hashC hpC).2 ["a", "bb"] ["ccc", "dddd"] 2 treeAB
      (by decide) (by decide) (by decide) (by decide) (by decide)⟩

/-- C7: under the layout invariant the slice starting at `count - 1` and
the slice of the last `count` entries coincide. -/
theorem C7_slice_equivalence (t : MerkleTree D)
    (hlen : t.hashes.length = 2 * t.count - 1) (hc : 1 ≤ t.count) :
    old_leaves_impl t = old_leaves_spec t := by
  unfold old_leaves_impl old_leaves_spec
  congr 1
  omega

/-- Witness for C7: the concrete two-leaf tree. -/
theorem C7_witness : old_leaves_impl treeAB = old_leaves_spec treeAB :=
  C7_slice_equivalence treeAB (by decide) (by decide)

/-- C9: a tree built from a single element has exactly the leaf digest as
its node list (the leaf is the root), `proof 0` is the empty sequence, and
`verify` of the empty proof at index 0 returns `true`. -/
theorem C9_singleton [DecidableEq D] (hash : String → D)
    (hash_pair : D → D → D) (e : String) :
    ∃ t, MerkleTree.new hash hash_pair [e] = some t ∧
      t.hashes = [hash e] ∧ t.proof 0 = some [] ∧
      t.verify hash_pair [] 0 = some true := by
  refine ⟨⟨[hash e], 1⟩, ?_, rfl, ?_, ?_⟩
  · unfold MerkleTree.new hash_elements
    rw [List.map_cons, List.map_nil, build_hashes_singleton]
    rfl
  · unfold MerkleTree.proof
    simp only
    rw [if_neg (by omega)]
    exact proofLoop_zero _ 0
  · unfold MerkleTree.verify MerkleTree.root
    simp [verifyLoop]

/-- Witness for C9: the element `"a"` under the concrete digest
functions. -/
theorem C9_witness :
    ∃ t, MerkleTree.new hashC hpC ["a"] = some t ∧
      t.hashes = [hashC "a"] ∧ t.proof 0 = some [] ∧
      t.verify hpC [] 0 = some true :=
  C9_singleton hashC hpC "a"

/-- C10: `add` of the empty element list is an identity on every
well-formed tree — one whose stored leaf slice (the last `count` entries,
read from offset `count - 1`) rebuilds to exactly its node list.  Every
tree produced by `new` or `add` has this shape, and the existence of the
rebuild forces the leaf count to be a power of two. -/
theorem C10_add_nil_identity (hash : String → D) (hash_pair : D → D → D)
    (t : MerkleTree D) (hc : 0 < t.count)
    (hlen : (t.hashes.drop (t.count - 1)).length = t.count)
    (hbuild : build_hashes hash_pair (t.hashes.drop (t.count - 1)) =
      some t.hashes) :
    t.add hash hash_pair [] = some t := by
  have hdl : (t.hashes.drop (t.count - 1)).length =
      t.hashes.length - (t.count - 1) := List.length_drop _ _
  rw [add_eq hash hash_pair t [] (by omega) (by omega)]
  simp only [hash_elements, List.map_nil, List.append_nil]
  rw [hbuild, hlen]
  rfl

/-- Witness for C10: the concrete two-leaf tree. -/
theorem C10_witness : treeAB.add hashC hpC [] = some treeAB :=
  C10_add_nil_identity hashC hpC treeAB (by decide) (by decide)
    (by rw [show treeAB.hashes.drop (treeAB.count - 1) = [[1], [2]] from rfl]
        rw [show treeAB.hashes = [[1, 2], [1], [2]] from rfl]
        rw [build_hashes_step (by decide)
          (show pair_up hpC [[1], [2]] = some [[1, 2]] from rfl),
          build_hashes_singleton]
        rfl)

/-- Shape of `proofLoop` over `2 ^ k` leaves: `k` siblings are collected,
the one for level `j` read at absolute position
`(2 ^ (k - j) - 1) + (index_j ± 1)` where `index_j = index / 2 ^ j`. -/
theorem proofLoop_pow2 :
    ∀ (k index : Nat) (ns : List D), 2 ^ (k + 1) - 1 ≤ ns.length →
    index < 2 ^ k →
    ∃ pf, proofLoop ns index (2 ^ k - 1) = some pf ∧ pf.length = k ∧
      ∀ j, j < k → pf[j]? =
        ns[2 ^ (k - j) - 1 + (if index / 2 ^ j % 2 = 0
          then index / 2 ^ j + 1 else index / 2 ^ j - 1)]? := by
  intro k
  induction k with
  | zero =>
    intro index ns _ _
    exact ⟨[], by rw [pow_zero]; exact proofLoop_zero ns index, rfl,
      by intro j hj; omega⟩
  | succ k ih =>
    intro index ns hns hidx
    have hpos := Nat.two_pow_pos k
    have hs1 : (2 : Nat) ^ (k + 1) = 2 * 2 ^ k := by rw [pow_succ]; ring
    have hs2 : (2 : Nat) ^ (k + 2) = 4 * 2 ^ k := by rw [pow_succ, pow_succ]; ring
    rw [hs2] at hns
    obtain ⟨i, hi⟩ : ∃ i, 2 ^ (k + 1) - 1 = i + 1 := ⟨2 ^ (k + 1) - 2, by omega⟩
    rw [hi, proofLoop_succ]
    have harith : (i + 1 + 1) / 2 - 1 = 2 ^ k - 1 := by omega
    rw [harith]
    obtain ⟨pf2, hpf2, hl2, hidx2⟩ :=
      ih (index / 2) ns (by omega) (by omega)
    by_cases hpar : index % 2 = 0
    · have hbound : index + 1 + (i + 1) < ns.length := by omega
      have haccess : ns[index + 1 + (i + 1)]? = some ns[index + 1 + (i + 1)] :=
        (List.getElem?_eq_some_getElem_iff ns _ hbound).mpr trivial
      refine ⟨ns[index + 1 + (i + 1)] :: pf2, ?_, by simp [hl2], ?_⟩
      · rw [if_pos hpar, haccess, Option.some_bind, hpf2]
        rfl
      · intro j hj
        cases j with
        | zero =>
          simp only [List.getElem?_cons_zero, pow_zero, Nat.div_one]
          rw [if_pos hpar,
            show 2 ^ (k + 1 - 0) - 1 + (index + 1) = index + 1 + (i + 1) by
              simp only [Nat.sub_zero]; omega, haccess]
        | succ j =>
          simp only [List.getElem?_cons_succ]
          rw [show k + 1 - (j + 1) = k - j by omega,
            show index / 2 ^ (j + 1) = index / 2 / 2 ^ j by
              rw [Nat.div_div_eq_div_mul, mul_comm, ← pow_succ]]
          exact hidx2 j (by omega)
    · have hbound : index + (i + 1) - 1 < ns.length := by omega
      have haccess : ns[index + (i + 1) - 1]? = some ns[index + (i + 1) - 1] :=
        (List.getElem?_eq_some_getElem_iff ns _ hbound).mpr trivial
      refine ⟨ns[index + (i + 1) - 1] :: pf2, ?_, by simp [hl2], ?_⟩
      · rw [if_neg hpar, haccess, Option.some_bind, hpf2]
        rfl
      · intro j hj
        cases j with
        | zero =>
          simp only [List.getElem?_cons_zero, pow_zero, Nat.div_one]
          rw [if_neg hpar,
            show 2 ^ (k + 1 - 0) - 1 + (index - 1) = index + (i + 1) - 1 by
              simp only [Nat.sub_zero]; omega, haccess]
        | succ j =>
          simp only [List.getElem?_cons_succ]
          rw [show k + 1 - (j + 1) = k - j by omega,
            show index / 2 ^ (j + 1) = index / 2 / 2 ^ j by
              rw [Nat.div_div_eq_div_mul, mul_comm, ← pow_succ]]
          exact hidx2 j (by omega)

/-- C6: on a tree with `2 ^ k` leaves satisfying the layout invariant,
`proof` returns exactly `k` sibling digests, the one for level `j` taken
at absolute position `levelStart + idx + 1` (even working index) or
`levelStart + idx - 1` (odd), where `levelStart = 2 ^ (k - j) - 1` and
`idx = leafIndex / 2 ^ j`. -/
theorem C6_proof_structure (t : MerkleTree D) (k : Nat) (hk : t.count = 2 ^ k)
    (hlen : t.hashes.length = 2 * t.count - 1) (index : Nat)
    (hidx : index < t.count) :
    ∃ pf, t.proof index = some pf ∧ pf.length = k ∧
      ∀ j, j < k → pf[j]? =
        t.hashes[2 ^ (k - j) - 1 + (if index / 2 ^ j % 2 = 0
          then index / 2 ^ j + 1 else index / 2 ^ j - 1)]? := by
  have hpos := Nat.two_pow_pos k
  have hs1 : (2 : Nat) ^ (k + 1) = 2 * 2 ^ k := by rw [pow_succ]; ring
  obtain ⟨pf, hpf, hl, hidxs⟩ :=
    proofLoop_pow2 k index t.hashes (by omega) (by omega)
  refine ⟨pf, ?_, hl, hidxs⟩
  unfold MerkleTree.proof
  rw [if_neg (by omega), hk]
  exact hpf

/-- Witness for C6: the concrete four-leaf tree at leaf index 1. -/
theorem C6_witness :
    ∃ pf, treeHola.proof 1 = some pf ∧ pf.length = 2 ∧
      ∀ j, j < 2 → pf[j]? =
        treeHola.hashes[2 ^ (2 - j) - 1 + (if 1 / 2 ^ j % 2 = 0
          then 1 / 2 ^ j + 1 else 1 / 2 ^ j - 1)]? :=
  C6_proof_structure treeHola 2 (by decide) (by decide) 1 (by decide)

/-- C8: on the tree built from four elements `[a, b, c, d]`, `proof 0` is
exactly `[hash b, hash_pair (hash c) (hash d)]`. -/
theorem C8_proof_first_of_four (hash : String → D) (hash_pair : D → D → D)
    (a b c d : String) (t : MerkleTree D)
    (ht : MerkleTree.new hash hash_pair [a, b, c, d] = some t) :
    t.proof 0 = some [hash b, hash_pair (hash c) (hash d)] := by
  obtain ⟨n, hb, rfl⟩ := new_eq_some ht
  have hcomp : build_hashes hash_pair [hash a, hash b, hash c, hash d] =
      some [hash_pair (hash_pair (hash a) (hash b))
          (hash_pair (hash c) (hash d)),
        hash_pair (hash a) (hash b), hash_pair (hash c) (hash d),
        hash a, hash b, hash c, hash d] := by
    rw [build_hashes_step (by norm_num)
        (show pair_up hash_pair [hash a, hash b, hash c, hash d] =
          some [hash_pair (hash a) (hash b), hash_pair (hash c) (hash d)] by
            simp [pair_up]),
      build_hashes_step (by norm_num)
        (show pair_up hash_pair
            [hash_pair (hash a) (hash b), hash_pair (hash c) (hash d)] =
          some [hash_pair (hash_pair (hash a) (hash b))
            (hash_pair (hash c) (hash d))] by simp [pair_up]),
      build_hashes_singleton]
    rfl
  simp only [hash_elements, List.map_cons, List.map_nil] at hb
  rw [hcomp] at hb
  cases hb
  unfold MerkleTree.proof
  simp [proofLoop]

/-- Witness for C8: the concrete strings of the spec scenario under the
concrete digest functions. -/
theorem C8_witness :
    treeHola.proof 0 = some [hashC "moikka", hpC (hashC "heippa") (hashC "ahoj")] :=
  C8_proof_first_of_four hashC hpC "hola" "moikka" "heippa" "ahoj" treeHola
    (by simp [MerkleTree.new, hash_elements, build_hashes, pair_up, hashC,
          hpC, treeHola]
        decide)

/-- Counterexample to C4 as stated: on the single-leaf tree built from
`["a"]`, the out-of-range leaf index 1 makes `proof` return a normal
result (the empty proof) rather than failing — the sibling loop body never
runs because the leaf level starts at offset 0. -/
theorem C4_counterexample :
    MerkleTree.new hashC hpC ["a"] = some treeA ∧ treeA.count ≤ 1 ∧
    treeA.proof 1 = some [] := by
  refine ⟨?_, by decide, ?_⟩
  · simp [MerkleTree.new, hash_elements, build_hashes, pair_up, hashC, treeA]
    decide
  · simp [MerkleTree.proof, treeA, proofLoop]

/-- C4 amended: an empty element list or a non-power-of-two element count
makes construction fail; an out-of-range leaf index makes `verify` fail on
any tree satisfying the layout invariant, and makes `proof` fail on such
trees with at least two leaves (on a single-leaf tree `proof` instead
returns the empty proof normally, for any index). -/
theorem C4_precondition_failures [DecidableEq D] (hash : String → D)
    (hash_pair : D → D → D) :
    (MerkleTree.new hash hash_pair [] = none) ∧
    (∀ elements : List String, (∀ k, elements.length ≠ 2 ^ k) →
      MerkleTree.new hash hash_pair elements = none) ∧
    (∀ (t : MerkleTree D) (k index : Nat), t.count = 2 ^ k → 1 ≤ k →
      t.hashes.length = 2 * t.count - 1 → t.count ≤ index →
      t.proof index = none) ∧
    (∀ (t : MerkleTree D) (pf : List D) (index : Nat),
      t.hashes.length = 2 * t.count - 1 → t.count ≤ index →
      t.verify hash_pair pf index = none) := by
  refine ⟨?_, ?_, ?_, ?_⟩
  · unfold MerkleTree.new hash_elements
    rw [List.map_nil, build_hashes_nil]
    rfl
  · intro elements hnp
    unfold MerkleTree.new
    rw [build_hashes_not_pow2 hash_pair (hash_elements hash elements).length _
      rfl (by simpa [hash_elements] using hnp)]
    rfl
  · intro t k index hk hk1 hlen hge
    obtain ⟨k2, rfl⟩ : ∃ k2, k = k2 + 1 := ⟨k - 1, by omega⟩
    have hpos := Nat.two_pow_pos k2
    have hs1 : (2 : Nat) ^ (k2 + 1) = 2 * 2 ^ k2 := by rw [pow_succ]; ring
    unfold MerkleTree.proof
    rw [if_neg (by omega)]
    obtain ⟨i, hi⟩ : ∃ i, t.count - 1 = i + 1 := ⟨t.count - 2, by omega⟩
    rw [hi, proofLoop_succ]
    by_cases hpar : index % 2 = 0
    · rw [if_pos hpar, List.getElem?_eq_none_iff.mpr (by omega)]
      rfl
    · rw [if_neg hpar, List.getElem?_eq_none_iff.mpr (by omega)]
      rfl
  · intro t pf index hlen hge
    unfold MerkleTree.verify
    by_cases hc0 : t.count = 0
    · rw [if_pos hc0]
    · rw [if_neg hc0, List.getElem?_eq_none_iff.mpr (by omega)]

/-- Witness for C4 (amended): concrete failing runs of each clause. -/
theorem C4_witness :
    MerkleTree.new hashC hpC [] = none ∧
    MerkleTree.new hashC hpC ["a", "bb", "ccc"] = none ∧
    treeHola.proof 4 = none ∧
    treeAB.verify hpC [] 5 = none :=
  ⟨(C4_precondition_failures hashC hpC).1,
    (C4_precondition_failures hashC hpC).2.1 ["a", "bb", "ccc"]
      (by intro k h
          have hlen : (["a", "bb", "ccc"] : List String).length = 3 := rfl
          rw [hlen] at h
          rcases k with _ | k
          · simp at h
          · rw [pow_succ] at h
            have := Nat.two_pow_pos k
            omega),
    (C4_precondition_failures hashC hpC).2.2.1 treeHola 2 4
      (by decide) (by decide) (by decide) (by decide),
    (C4_precondition_failures hashC hpC).2.2.2 treeAB [] 5
      (by decide) (by decide)⟩

/-- Counterexample to C5 as stated: adding one element to the two-leaf
tree makes the rebuild panic, and at the moment of the panic the tree
holds `count = 3` while `hashes` is still the old three-node list — an
intermediate state in which only part of the state was updated. -/
theorem C5_counterexample :
    MerkleTree.add_exec hashC hpC treeAB ["a"] =
      .error ⟨treeAB.hashes, 3⟩ ∧ (3 : Nat) ≠ treeAB.count := by
  constructor
  · simp [MerkleTree.add_exec, treeAB, hash_elements, hashC, build_hashes,
      pair_up]
  · decide

/-- C5 amended: every run of `add` either completes with a fully rebuilt
node list, or panics before mutating anything (leaving the state exactly
as before), or panics inside the rebuild — in which case `count` has
already been set to the new leaf total while `hashes` still holds the old
nodes. -/
theorem C5_add_atomicity (hash : String → D) (hash_pair : D → D → D)
    (t : MerkleTree D) (elements : List String) :
    (∃ t2, t.add_exec hash hash_pair elements = .ok t2 ∧
      build_hashes hash_pair (t.hashes.drop (t.count - 1) ++
        hash_elements hash elements) = some t2.hashes ∧
      t2.count = (t.hashes.drop (t.count - 1) ++
        hash_elements hash elements).length) ∨
    t.add_exec hash hash_pair elements = .error t ∨
    (∃ t1, t.add_exec hash hash_pair elements = .error t1 ∧
      t1.hashes = t.hashes ∧
      t1.count = (t.hashes.drop (t.count - 1) ++
        hash_elements hash elements).length ∧
      build_hashes hash_pair (t.hashes.drop (t.count - 1) ++
        hash_elements hash elements) = none) := by
  unfold MerkleTree.add_exec
  by_cases hc0 : t.count = 0
  · right; left
    rw [if_pos hc0]
  · by_cases hg : t.hashes.length < t.count - 1
    · right; left
      rw [if_neg hc0, if_pos hg]
    · rw [if_neg hc0, if_neg hg]
      cases hb : build_hashes hash_pair (t.hashes.drop (t.count - 1) ++
          hash_elements hash elements) with
      | none =>
        right; right
        refine ⟨⟨t.hashes, (t.hashes.drop (t.count - 1) ++
          hash_elements hash elements).length⟩, ?_, rfl, rfl, rfl⟩
        simp only [hb]
      | some hs =>
        left
        refine ⟨⟨hs, (t.hashes.drop (t.count - 1) ++
          hash_elements hash elements).length⟩, ?_, rfl, rfl⟩
        simp only [hb]

/-- Witness for C5 (amended): a concrete run landing in the
partial-state branch. -/
theorem C5_witness :
    (∃ t2, treeAB.add_exec hashC hpC ["a"] = .ok t2 ∧
      build_hashes hpC (treeAB.hashes.drop (treeAB.count - 1) ++
        hash_elements hashC ["a"]) = some t2.hashes ∧
      t2.count = (treeAB.hashes.drop (treeAB.count - 1) ++
        hash_elements hashC ["a"]).length) ∨
    treeAB.add_exec hashC hpC ["a"] = .error treeAB ∨
    (∃ t1, treeAB.add_exec hashC hpC ["a"] = .error t1 ∧
      t1.hashes = treeAB.hashes ∧
      t1.count = (treeAB.hashes.drop (treeAB.count - 1) ++
        hash_elements hashC ["a"]).length ∧
      build_hashes hpC (treeAB.hashes.drop (treeAB.count - 1) ++
        hash_elements hashC ["a"]) = none) :=
  C5_add_atomicity hashC hpC treeAB ["a"]
